import Mathlib

/-!
Verification development for the helm-s3 index reconciliation engine.

The repository sources under verification are the CLI actions
(deleteAction.Run, reindexAction.Run) and the helmutil index tests; the
helmutil index implementation itself (IndexV2/IndexV3), the awss3.Traverse
producer and the push action are present in the repository only through
their tests and callers, so those parts are modelled from the spec, as
marked on each definition.

Machine-level conventions of the shallow embedding: Go strings are Lean
String, Go errors are Except String, timestamps are carried as their
RFC3339 rendering (the engine never computes on them), and the serialized
index ("bytes") is modelled at two levels: a structured-text AST (Yaml)
for the codec round-trip, and a rendered String for the canonical-form
fixtures.
-/

namespace HelmS3

/-- Modelled from the spec (section 3): a parsed semantic version. The spec
requires version strings to parse as valid, comparable versions; the model
parses dot-separated numeric major.minor.patch components, which covers
every version the engine and its tests exercise. -/
structure Semver where
  major : Nat
  minor : Nat
  patch : Nat
deriving DecidableEq, Repr

/-- Split a character list at every dot. -/
def splitDots : List Char → List (List Char)
  | [] => [[]]
  | c :: cs =>
    if c = '.' then [] :: splitDots cs
    else
      match splitDots cs with
      | [] => [[c]]
      | g :: gs => (c :: g) :: gs

/-- Value of a non-empty all-digit character list; none otherwise. -/
def digitsVal : List Char → Option Nat
  | [] => none
  | cs =>
    cs.foldl
      (fun acc c =>
        match acc with
        | none => none
        | some n => if c.isDigit then some (n * 10 + (c.toNat - 48)) else none)
      (some 0)

/-- Modelled from the spec: semantic-version parsing used by AddOrReplace
validation and by SortEntries. Returns none unless the string is exactly
three dot-separated decimal numbers. -/
def parseSemver (s : String) : Option Semver :=
  match (splitDots s.data).map digitsVal with
  | [some a, some b, some c] => some ⟨a, b, c⟩
  | _ => none

/-- Boolean less-or-equal on parsed versions: lexicographic on
(major, minor, patch). -/
def Semver.leB (a b : Semver) : Bool :=
  a.major < b.major ||
    (a.major = b.major &&
      (a.minor < b.minor || (a.minor = b.minor && a.patch ≤ b.patch)))

/-- Chart metadata as consumed by AddOrReplace: the artifact name and
version string (descriptive fields do not influence the merge algorithm). -/
structure ChartMetadata where
  name : String
  version : String
deriving DecidableEq, Repr

/-- One published version entry of one artifact, with the serialized
per-entry fields name, version, urls, digest, created. -/
structure ChartVersion where
  name : String
  version : String
  urls : List String
  digest : String
  created : String
deriving DecidableEq, Repr

/-- The logical manifest: apiVersion marker, generated timestamp, and the
entries mapping from artifact name to its version list. The Go map is
modelled as an association list kept in the (sorted) order in which the
serializer iterates the map; a nil Go map is none, an initialized map is
some. -/
structure Index where
  apiVersion : String
  generated : String
  entries : Option (List (String × List ChartVersion))
deriving DecidableEq, Repr

/-- Zero value of a Go time rendered in RFC3339, as in the repository
test fixtures. -/
def zeroTime : String := "0001-01-01T00:00:00Z"

/-- Modelled from the spec: a fresh empty-but-initialized manifest
(empty entries mapping, zero-value generated timestamp, v1 schema
marker). -/
def newIndex : Index := ⟨"v1", zeroTime, some []⟩

/-- Modelled from the spec (section 4.3): location building joins a
non-empty base URL with the stored file name; an empty base yields the
bare file name (relative location). -/
def urlJoin (baseURL fileName : String) : String :=
  if baseURL = "" then fileName else baseURL ++ "/" ++ fileName

/-- Lexicographic byte order on character lists, the order of Go string
comparison used when the serializer iterates map keys. -/
def charListLt : List Char → List Char → Bool
  | _, [] => false
  | [], _ :: _ => true
  | a :: as, b :: bs =>
    if a.toNat < b.toNat then true
    else if b.toNat < a.toNat then false
    else charListLt as bs

/-- Lexicographic order on strings. -/
def strLt (a b : String) : Bool := charListLt a.data b.data

theorem charToNat_inj {a b : Char} (h : a.toNat = b.toNat) : a = b := by
  apply Char.eq_of_val_eq
  exact UInt32.ext h

theorem charListLt_irrefl (l : List Char) : charListLt l l = false := by
  induction l with
  | nil => rfl
  | cons a as ih => simp [charListLt, ih]

theorem charListLt_trans {a b c : List Char} (h1 : charListLt a b = true)
    (h2 : charListLt b c = true) : charListLt a c = true := by
  induction a generalizing b c with
  | nil =>
    cases c with
    | nil => cases b <;> simp [charListLt] at h1 h2
    | cons c cs => simp [charListLt]
  | cons x xs ih =>
    cases b with
    | nil => simp [charListLt] at h1
    | cons y ys =>
      cases c with
      | nil => simp [charListLt] at h2
      | cons z zs =>
        simp only [charListLt] at h1 h2 ⊢
        by_cases hxy : x.toNat < y.toNat
        · by_cases hyz : y.toNat < z.toNat
          · simp [Nat.lt_trans hxy hyz]
          · by_cases hzy : z.toNat < y.toNat
            · simp [hyz, hzy] at h2
            · have : y.toNat = z.toNat := by omega
              simp [this ▸ hxy]
        · by_cases hyx : y.toNat < x.toNat
          · simp [hxy, hyx] at h1
          · have hxyeq : x.toNat = y.toNat := by omega
            simp [hxy, hyx] at h1
            by_cases hyz : y.toNat < z.toNat
            · simp [hxyeq ▸ hyz]
            · by_cases hzy : z.toNat < y.toNat
              · simp [hyz, hzy] at h2
              · simp [hyz, hzy] at h2
                have h3 : ¬ x.toNat < z.toNat := by omega
                have h4 : ¬ z.toNat < x.toNat := by omega
                simp [h3, h4]
                exact ih h1 h2

theorem charListLt_conn {a b : List Char} (h1 : charListLt a b = false)
    (h2 : a ≠ b) : charListLt b a = true := by
  induction a generalizing b with
  | nil =>
    cases b with
    | nil => exact absurd rfl h2
    | cons y ys => simp [charListLt] at h1
  | cons x xs ih =>
    cases b with
    | nil => simp [charListLt]
    | cons y ys =>
      simp only [charListLt] at h1 ⊢
      by_cases hxy : x.toNat < y.toNat
      · simp [hxy] at h1
      · by_cases hyx : y.toNat < x.toNat
        · simp [hyx]
        · have heq : x.toNat = y.toNat := by omega
          have hc : x = y := charToNat_inj heq
          subst hc
          simp [hxy, hyx] at h1 ⊢
          apply ih h1
          intro hh
          exact h2 (by rw [hh])

theorem strLt_trans {a b c : String} (h1 : strLt a b = true) (h2 : strLt b c = true) :
    strLt a c = true := charListLt_trans h1 h2

theorem strLt_irrefl (a : String) : strLt a a = false := charListLt_irrefl a.data

theorem strLt_conn {a b : String} (h1 : strLt a b = false) (h2 : a ≠ b) :
    strLt b a = true := by
  refine charListLt_conn h1 (fun hh => h2 ?_)
  cases a; cases b
  simp at hh
  rw [hh]

/-- Replace the first version-equal entry in place, or append the new
entry at the end when no version matches. -/
def replaceVersion (e : ChartVersion) : List ChartVersion → List ChartVersion
  | [] => [e]
  | v :: vs => if v.version = e.version then e :: vs else v :: replaceVersion e vs

/-- Insert an entry for artifact n into the association list, keeping the
keys in the sorted order in which the Go map is serialized: an existing
key has its version list updated in place, a new key is inserted at its
sorted position. -/
def insertEntry (n : String) (e : ChartVersion) :
    List (String × List ChartVersion) → List (String × List ChartVersion)
  | [] => [(n, [e])]
  | (k, vs) :: rest =>
    if k = n then (k, replaceVersion e vs) :: rest
    else if strLt n k = true then (n, [e]) :: (k, vs) :: rest
    else (k, vs) :: insertEntry n e rest

/-- Modelled from the spec (section 4.3): AddOrReplace validates the
metadata (non-empty name, parseable version), builds the location by
joining baseURL with the stored file name, and replaces the version-equal
entry in place or appends a new one; created is set to the supplied
current time. -/
def Index.AddOrReplace (idx : Index) (md : ChartMetadata)
    (fileName baseURL digest now : String) : Except String Index :=
  if md.name = "" then .error "chart name is empty"
  else
    match parseSemver md.version with
    | none => .error ("invalid chart version: " ++ md.version)
    | some _ =>
      let e : ChartVersion :=
        ⟨md.name, md.version, [urlJoin baseURL fileName], digest, now⟩
      .ok { idx with entries := some (insertEntry md.name e (idx.entries.getD [])) }

/-- Find the version list of artifact n (first key match). -/
def lookupEntries (n : String) :
    List (String × List ChartVersion) → Option (List ChartVersion)
  | [] => none
  | (k, vs) :: rest => if k = n then some vs else lookupEntries n rest

/-- Find the first entry with the given version string. -/
def findVersion (v : String) : List ChartVersion → Option ChartVersion
  | [] => none
  | e :: es => if e.version = v then some e else findVersion v es

/-- Look up the entry for (name, version) in an entries list. -/
def lookupIn (es : List (String × List ChartVersion)) (name version : String) :
    Option ChartVersion :=
  match lookupEntries name es with
  | none => none
  | some vs => findVersion version vs

/-- Look up the entry for (name, version) in the manifest. -/
def Index.lookup (idx : Index) (name version : String) : Option ChartVersion :=
  lookupIn (idx.entries.getD []) name version

/-- Remove the first entry with the given version, returning its primary
location (empty when the entry has no locations) and the remaining list;
none when no entry matches. -/
def removeVersion (version : String) :
    List ChartVersion → Option (String × List ChartVersion)
  | [] => none
  | v :: vs =>
    if v.version = version then some (v.urls.headD "", vs)
    else
      match removeVersion version vs with
      | none => none
      | some (u, vs2) => some (u, v :: vs2)

/-- Remove the (name, version) entry from the association list; when the
last version of an artifact is removed the key itself is dropped (no
empty-list residue). -/
def deleteEntry (name version : String) :
    List (String × List ChartVersion) →
    Option (String × List (String × List ChartVersion))
  | [] => none
  | (k, vs) :: rest =>
    if k = name then
      match removeVersion version vs with
      | none => none
      | some (u, vs2) =>
        some (u, if vs2.isEmpty then rest else (k, vs2) :: rest)
    else
      match deleteEntry name version rest with
      | none => none
      | some (u, rest2) => some (u, (k, vs) :: rest2)

/-- Modelled from the spec (section 4.3): Delete removes the matching
entry, drops an emptied artifact key, and returns the primary location of
the removed entry so the caller can delete the stored object; a missing
(name, version) is an error and the manifest is returned unchanged,
mirroring the in-place Go method that leaves the receiver untouched on
the error path. -/
def Index.Delete (idx : Index) (name version : String) :
    Except String String × Index :=
  match deleteEntry name version (idx.entries.getD []) with
  | none =>
    (.error ("chart " ++ name ++ " version " ++ version ++ " not found in index"), idx)
  | some (u, es) => (.ok u, { idx with entries := some es })

/-- Sort key of an entry: its parsed version (entries produced by the
engine always parse; a hypothetical unparseable version sorts as 0.0.0). -/
def semverKey (v : ChartVersion) : Semver :=
  (parseSemver v.version).getD ⟨0, 0, 0⟩

/-- Descending order on entries: a before b when the parsed version of a
is at least that of b (newest first). -/
def vDesc (a b : ChartVersion) : Prop :=
  Semver.leB (semverKey b) (semverKey a) = true

instance : DecidableRel vDesc := fun a b => by
  unfold vDesc; infer_instance

theorem Semver.leB_total (a b : Semver) : a.leB b = true ∨ b.leB a = true := by
  rcases a with ⟨x1, y1, z1⟩; rcases b with ⟨x2, y2, z2⟩
  simp only [Semver.leB, Bool.or_eq_true, Bool.and_eq_true, decide_eq_true_eq]
  omega

theorem Semver.leB_trans {a b c : Semver}
    (h1 : a.leB b = true) (h2 : b.leB c = true) : a.leB c = true := by
  rcases a with ⟨x1, y1, z1⟩; rcases b with ⟨x2, y2, z2⟩; rcases c with ⟨x3, y3, z3⟩
  simp only [Semver.leB, Bool.or_eq_true, Bool.and_eq_true, decide_eq_true_eq] at *
  omega

instance : IsTotal ChartVersion vDesc :=
  ⟨fun a b => by unfold vDesc; exact (Semver.leB_total (semverKey b) (semverKey a))⟩

instance : IsTrans ChartVersion vDesc :=
  ⟨fun _ _ _ h1 h2 => Semver.leB_trans h2 h1⟩

/-- Modelled from the spec (section 4.3): SortEntries orders each
version list by descending parsed semantic version (newest first); the
key order of the mapping itself is untouched. -/
def Index.SortEntries (idx : Index) : Index :=
  { idx with
    entries := idx.entries.map (List.map (fun p => (p.1, List.insertionSort vDesc p.2))) }

/-! ## Codec: structured-text AST level -/

/-- Structured-text document tree: the image of the serializer before the
byte-level rendering (scalars, sequences, mappings, and the null scalar a
nil Go map marshals to). -/
inductive Yaml where
  | str (s : String)
  | nul
  | seq (items : List Yaml)
  | map (fields : List (String × Yaml))

/-- Modelled from the spec (section 4.2): one version entry serializes as
a mapping with the per-entry fields created, digest, name, urls, version
(the alphabetical field order the marshaller emits). -/
def encodeEntry (v : ChartVersion) : Yaml :=
  .map [("created", .str v.created), ("digest", .str v.digest),
        ("name", .str v.name), ("urls", .seq (v.urls.map .str)),
        ("version", .str v.version)]

/-- Modelled from the spec (section 4.2): the manifest serializes as a
mapping with top-level fields apiVersion, entries, generated; a nil
entries map serializes as null, an initialized one as a mapping in the
order of the model list (the sorted order the Go marshaller iterates map
keys in). -/
def encodeIndex (idx : Index) : Yaml :=
  .map [("apiVersion", .str idx.apiVersion),
        ("entries",
          match idx.entries with
          | none => .nul
          | some es => .map (es.map (fun p => (p.1, .seq (p.2.map encodeEntry))))),
        ("generated", .str idx.generated)]

/-- Decode the string items of a url sequence. -/
def decodeStrList : List Yaml → Except String (List String)
  | [] => .ok []
  | .str s :: rest => (decodeStrList rest).map (s :: ·)
  | _ => .error "expected a string scalar in a sequence"

/-- Modelled from the spec (section 4.2): decode one version entry,
failing with a decode error on any malformed structure. -/
def decodeEntry : Yaml → Except String ChartVersion
  | .map [("created", .str c), ("digest", .str d), ("name", .str n),
          ("urls", .seq us), ("version", .str v)] =>
    (decodeStrList us).map (fun urls => ⟨n, v, urls, d, c⟩)
  | _ => .error "malformed chart version entry"

/-- Decode the version list of one artifact key. -/
def decodeVersions : List Yaml → Except String (List ChartVersion)
  | [] => .ok []
  | y :: rest => do
    let v ← decodeEntry y
    let vs ← decodeVersions rest
    .ok (v :: vs)

/-- Decode the entries mapping. -/
def decodeEntries : List (String × Yaml) → Except String (List (String × List ChartVersion))
  | [] => .ok []
  | (k, .seq vs) :: rest => do
    let cvs ← decodeVersions vs
    let es ← decodeEntries rest
    .ok ((k, cvs) :: es)
  | _ => .error "malformed entries mapping"

/-- Modelled from the spec (section 4.2): decode a manifest document,
failing with a decode error on malformed structure. -/
def decodeIndex : Yaml → Except String Index
  | .map [("apiVersion", .str a), ("entries", ey), ("generated", .str g)] =>
    match ey with
    | .nul => .ok ⟨a, g, none⟩
    | .map es => (decodeEntries es).map (fun entries => ⟨a, g, some entries⟩)
    | _ => .error "malformed entries field"
  | _ => .error "malformed index document"

/-- The legacy schema variant: a thin adapter over the shared logical
manifest, as the spec prescribes (section 9). -/
structure IndexV2 where
  index : Index
deriving DecidableEq, Repr

/-- The current schema variant: a thin adapter over the shared logical
manifest. -/
structure IndexV3 where
  index : Index
deriving DecidableEq, Repr

/-- Encoder of the legacy variant. -/
def IndexV2.encode (i : IndexV2) : Yaml := encodeIndex i.index

/-- Decoder of the legacy variant. -/
def IndexV2.decode (y : Yaml) : Except String IndexV2 :=
  (decodeIndex y).map IndexV2.mk

/-- Encoder of the current variant. -/
def IndexV3.encode (i : IndexV3) : Yaml := encodeIndex i.index

/-- Decoder of the current variant. -/
def IndexV3.decode (y : Yaml) : Except String IndexV3 :=
  (decodeIndex y).map IndexV3.mk

/-! ## Codec: rendered byte level -/

/-- Scalar quoting of the marshaller, restricted to the value space of
this engine: timestamp-shaped scalars are quoted (they would otherwise be
re-read as timestamps), everything else is emitted bare. -/
def needsQuote (s : String) : Bool :=
  (match s.data.getLast? with
   | some c => c = 'Z'
   | none => false) && s.data.any (· = 'T')

/-- Render one scalar. -/
def renderScalar (s : String) : String :=
  if needsQuote s then "\"" ++ s ++ "\"" else s

/-- Render one url line of an entry. -/
def renderURL (u : String) : String := "    - " ++ u ++ "\n"

/-- Render one version entry in the block layout of the repository test
fixtures. -/
def renderVersionEntry (v : ChartVersion) : String :=
  "  - created: " ++ renderScalar v.created ++ "\n" ++
  "    digest: " ++ renderScalar v.digest ++ "\n" ++
  "    name: " ++ renderScalar v.name ++ "\n" ++
  (if v.urls.isEmpty then "    urls: []\n"
   else "    urls:\n" ++ String.join (v.urls.map renderURL)) ++
  "    version: " ++ renderScalar v.version ++ "\n"

/-- Render one artifact key with its version entries. -/
def renderEntryKey (p : String × List ChartVersion) : String :=
  "  " ++ p.1 ++ ":\n" ++ String.join (p.2.map renderVersionEntry)

/-- Modelled from the spec (section 4.2) and the repository test
fixtures: MarshalBinary renders the manifest with the apiVersion,
entries, generated fields always present; a nil entries map renders as
null, an initialized empty one as the canonical empty mapping. -/
def Index.MarshalBinary (idx : Index) : String :=
  "apiVersion: " ++ renderScalar idx.apiVersion ++ "\n" ++
  (match idx.entries with
   | none => "entries: null\n"
   | some [] => "entries: \x7b\x7d\n"
   | some es => "entries:\n" ++ String.join (es.map renderEntryKey)) ++
  "generated: " ++ renderScalar idx.generated ++ "\n"

/-! ## CLI action models -/

/-- One storage or local-cache call issued by an action, recorded in
order; index bodies carry the rendered bytes that are uploaded or
written. -/
inductive Effect where
  | fetchIndex
  | putObject (fileName : String)
  | deleteObject (url : String)
  | putIndex (body : String)
  | writeLocalCache (body : String)
deriving DecidableEq, Repr

/-- Collaborator outcomes for one delete invocation: the result of the
index fetch plus decode, and the outcomes of the storage delete, the
index upload, and the local cache write. -/
structure DeleteEnv where
  fetched : Except String Index
  deleteObjOk : Except String Unit
  putIndexOk : Except String Unit
  writeOk : Except String Unit

/-- Shared tail of the actions: upload the new index bytes, then write
the local cache file, extending the effect trace with the calls made. -/
def publishSteps (fx : List Effect) (body : String)
    (putIndexOk writeOk : Except String Unit) : Except String Unit × List Effect :=
  match putIndexOk with
  | .error e => (.error ("upload new index to s3: " ++ e), fx ++ [.putIndex body])
  | .ok _ =>
    match writeOk with
    | .error e =>
      (.error ("update local index: " ++ e), fx ++ [.putIndex body, .writeLocalCache body])
    | .ok _ => (.ok (), fx ++ [.putIndex body, .writeLocalCache body])

/-- The single-artifact delete action, translated from deleteAction.Run:
fetch and decode the index, apply Index.Delete, skip the storage delete
when the returned url is empty, then upload the new index and write the
local cache. -/
def deleteActionRun (env : DeleteEnv) (name version : String) :
    Except String Unit × List Effect :=
  match env.fetched with
  | .error e => (.error ("fetch current repo index: " ++ e), [.fetchIndex])
  | .ok idx =>
    match idx.Delete name version with
    | (.error e, _) => (.error e, [.fetchIndex])
    | (.ok url, idx2) =>
      let body := idx2.MarshalBinary
      if url = "" then
        publishSteps [.fetchIndex] body env.putIndexOk env.writeOk
      else
        match env.deleteObjOk with
        | .error e =>
          (.error ("delete chart file from s3: " ++ e), [.fetchIndex, .deleteObject url])
        | .ok _ =>
          publishSteps [.fetchIndex, .deleteObject url] body env.putIndexOk env.writeOk

/-- Collaborator outcomes for one publish invocation. -/
structure PushEnv where
  fetched : Except String Index
  putObjectOk : Except String Unit
  putIndexOk : Except String Unit
  writeOk : Except String Unit

/-- Modelled from the spec (section 4.5): steps 2 to 4 of the publish
protocol once the index is fetched and the pre-checks passed: mutate via
AddOrReplace, upload the artifact, republish the new index and write the
local cache. -/
def pushMutateSteps (env : PushEnv) (idx : Index) (md : ChartMetadata)
    (fileName baseURL digest now : String) : Except String Unit × List Effect :=
  match idx.AddOrReplace md fileName baseURL digest now with
  | .error e => (.error e, [.fetchIndex])
  | .ok idx2 =>
    match env.putObjectOk with
    | .error e =>
      (.error ("upload chart to s3: " ++ e), [.fetchIndex, .putObject fileName])
    | .ok _ =>
      publishSteps [.fetchIndex, .putObject fileName] idx2.MarshalBinary
        env.putIndexOk env.writeOk

/-- Modelled from the spec (section 4.5): the publish action. The
force and ignore-if-exists override modes are mutually exclusive and the
usage error is raised before any I/O; a pre-existing (name, version)
without an override mode is a conflict error; under ignore-if-exists a
pre-existing entry completes as a no-op; otherwise AddOrReplace runs,
the artifact is uploaded, and the new index is republished and cached. -/
def pushActionRun (env : PushEnv) (md : ChartMetadata)
    (fileName baseURL digest now : String) (force ignoreIfExists : Bool) :
    Except String Unit × List Effect :=
  if force && ignoreIfExists then
    (.error "the force and ignore-if-exists flags are mutually exclusive", [])
  else
    match env.fetched with
    | .error e => (.error ("fetch current repo index: " ++ e), [.fetchIndex])
    | .ok idx =>
      if (idx.lookup md.name md.version).isSome then
        if ignoreIfExists then (.ok (), [.fetchIndex])
        else if force then
          pushMutateSteps env idx md fileName baseURL digest now
        else (.error ("chart " ++ md.name ++ "-" ++ md.version ++ " already exists"), [.fetchIndex])
      else
        pushMutateSteps env idx md fileName baseURL digest now

/-- One triple emitted by the traversal producer: the chart metadata read
from the embedded descriptor, the stored file name, and the content
digest. -/
structure TraverseItem where
  meta : ChartMetadata
  filename : String
  hash : String
deriving DecidableEq, Repr

/-- Modelled from the spec (section 4.4): the traversal producer walks
every object under the storage location; each object either yields a
triple on the result channel or a failure on the error channel, and a
failure does not stop the traversal of the remaining objects. The two
channels are modelled by their total yields. -/
def Traverse (objects : List (Except String TraverseItem)) :
    List TraverseItem × List String :=
  (objects.filterMap (fun o => o.toOption),
   objects.filterMap (fun o => match o with | .error e => some e | .ok _ => none))

/-- One step of the consumer goroutine of reindexAction.Run: fold one
received triple into the index being built (the fold uses AddOrReplace
per the spec, the helmutil Add implementation being outside the
sources); a failed add is only logged and the consumer continues. -/
def reindexStep (baseURL now : String) (acc : Index × List String)
    (it : TraverseItem) : Index × List String :=
  match acc.1.AddOrReplace it.meta it.filename baseURL it.hash now with
  | .ok i => (i, acc.2)
  | .error e => (acc.1, acc.2 ++ ["[ERROR] failed to add chart to the index: " ++ e])

/-- The consumer goroutine of reindexAction.Run: fold every received
triple into a fresh index, then SortEntries once after the fold. Returns
the built index and the log lines. -/
def reindexConsume (items : List TraverseItem) (baseURL now : String) :
    Index × List String :=
  let folded := items.foldl (reindexStep baseURL now) (newIndex, [])
  (folded.1.SortEntries, folded.2)

/-- The reindex action, translated from reindexAction.Run: start the
traversal and the consumer, return a wrapped traversal error as soon as
the error channel yields one, otherwise upload the built index and write
the local cache. -/
def reindexActionRun (objects : List (Except String TraverseItem))
    (baseURL now : String) (putIndexOk writeOk : Except String Unit) :
    Except String Unit × List Effect :=
  let errs := (Traverse objects).2
  let built := (reindexConsume (Traverse objects).1 baseURL now).1
  match errs with
  | e :: _ => (.error ("traverse the chart repository: " ++ e), [])
  | [] =>
    match putIndexOk with
    | .error e => (.error ("upload index to the repository: " ++ e), [.putIndex built.MarshalBinary])
    | .ok _ =>
      match writeOk with
      | .error e =>
        (.error ("update local index: " ++ e),
         [.putIndex built.MarshalBinary, .writeLocalCache built.MarshalBinary])
      | .ok _ => (.ok (), [.putIndex built.MarshalBinary, .writeLocalCache built.MarshalBinary])

/-! ## Lemmas about the merge algorithm -/

/-- Boolean validity of chart metadata for AddOrReplace: non-empty name
and a parseable version. -/
def validMeta (md : ChartMetadata) : Bool :=
  (!(md.name == "")) && (parseSemver md.version).isSome

theorem findVersion_replaceVersion (e : ChartVersion) (vs : List ChartVersion) :
    findVersion e.version (replaceVersion e vs) = some e := by
  induction vs with
  | nil => simp [replaceVersion, findVersion]
  | cons v vs ih =>
    by_cases h : v.version = e.version
    · simp [replaceVersion, h, findVersion]
    · simp [replaceVersion, h, findVersion, ih]

theorem lookupIn_insertEntry_self (n : String) (e : ChartVersion)
    (es : List (String × List ChartVersion)) :
    lookupIn (insertEntry n e es) n e.version = some e := by
  induction es with
  | nil => simp [insertEntry, lookupIn, lookupEntries, findVersion]
  | cons p es ih =>
    obtain ⟨k, vs⟩ := p
    by_cases hk : k = n
    · subst hk
      simp [insertEntry, lookupIn, lookupEntries, findVersion_replaceVersion]
    · by_cases hlt : strLt n k = true
      · simp [insertEntry, hk, hlt, lookupIn, lookupEntries, findVersion]
      · simpa [insertEntry, hk, hlt, lookupIn, lookupEntries] using ih

theorem lookupEntries_insertEntry_ne {n m : String} (hn : n ≠ m)
    (e : ChartVersion) (es : List (String × List ChartVersion)) :
    lookupEntries n (insertEntry m e es) = lookupEntries n es := by
  have hmn : ¬ m = n := fun h => hn h.symm
  induction es with
  | nil => simp [insertEntry, lookupEntries, hmn]
  | cons p es ih =>
    obtain ⟨k, vs⟩ := p
    by_cases hk : k = m
    · subst hk
      have hkn : ¬ k = n := fun h => hn h.symm
      simp [insertEntry, lookupEntries, hkn]
    · by_cases hlt : strLt m k = true
      · simp [insertEntry, hk, hlt, lookupEntries, hmn]
      · by_cases hkn : k = n
        · subst hkn
          simp [insertEntry, hn, hlt, lookupEntries]
        · simp [insertEntry, hk, hlt, lookupEntries, hkn, ih]

theorem AddOrReplace_ok {md : ChartMetadata} {s : Semver} (idx : Index)
    (fileName baseURL digest now : String)
    (h1 : md.name ≠ "") (h2 : parseSemver md.version = some s) :
    idx.AddOrReplace md fileName baseURL digest now =
      .ok { idx with
            entries := some (insertEntry md.name
              ⟨md.name, md.version, [urlJoin baseURL fileName], digest, now⟩
              (idx.entries.getD [])) } := by
  simp [Index.AddOrReplace, h1, h2]

theorem AddOrReplace_isOk (idx : Index) (md : ChartMetadata)
    (fileName baseURL digest now : String) :
    (idx.AddOrReplace md fileName baseURL digest now).isOk = validMeta md := by
  by_cases h1 : md.name = ""
  · simp [Index.AddOrReplace, validMeta, h1, Except.isOk, Except.toBool]
  · cases h2 : parseSemver md.version with
    | none => simp [Index.AddOrReplace, validMeta, h1, h2, Except.isOk, Except.toBool]
    | some s => simp [Index.AddOrReplace, validMeta, h1, h2, Except.isOk, Except.toBool]

theorem removeVersion_of_findVersion_none {v : String} {vs : List ChartVersion}
    (h : findVersion v vs = none) : removeVersion v vs = none := by
  induction vs with
  | nil => simp [removeVersion]
  | cons e es ih =>
    by_cases he : e.version = v
    · simp [findVersion, he] at h
    · simp [findVersion, he] at h
      simp [removeVersion, he, ih h]

theorem deleteEntry_of_lookupIn_none {n v : String}
    {es : List (String × List ChartVersion)} (h : lookupIn es n v = none) :
    deleteEntry n v es = none := by
  induction es with
  | nil => simp [deleteEntry]
  | cons p es ih =>
    obtain ⟨k, vs⟩ := p
    by_cases hk : k = n
    · subst hk
      simp [lookupIn, lookupEntries] at h
      simp [deleteEntry, removeVersion_of_findVersion_none h]
    · simp [lookupIn, lookupEntries, hk] at h
      simp [deleteEntry, hk, ih h]

/-! ## The canonical-shape invariant of engine-produced manifests -/

/-- Strict order on entries by artifact key: the order the serializer
emits and every engine-produced entries list satisfies. -/
def keyLT (a b : String × List ChartVersion) : Prop := strLt a.1 b.1 = true

instance : DecidableRel keyLT := fun a b => by
  unfold keyLT; infer_instance

/-- Every version list is duplicate-free in its version strings. -/
def versionsNodup (es : List (String × List ChartVersion)) : Prop :=
  ∀ p ∈ es, (p.2.map ChartVersion.version).Nodup

/-- The invariant every manifest produced by this engine satisfies:
entries keys strictly sorted (hence unique) and version strings unique
within each artifact. -/
def Index.Canonical (idx : Index) : Prop :=
  List.Sorted keyLT (idx.entries.getD []) ∧ versionsNodup (idx.entries.getD [])

theorem mem_insertEntry_key (n : String) (e : ChartVersion)
    (es : List (String × List ChartVersion)) :
    ∀ q ∈ insertEntry n e es, q.1 = n ∨ q.1 ∈ es.map Prod.fst := by
  induction es with
  | nil =>
    intro q hq
    simp [insertEntry] at hq
    simp [hq]
  | cons p es ih =>
    obtain ⟨k, vs⟩ := p
    intro q hq
    by_cases hk : k = n
    · subst hk
      simp [insertEntry] at hq
      rcases hq with hq | hq
      · simp [hq]
      · refine Or.inr ?_
        rw [List.map_cons]
        exact List.mem_cons_of_mem _ (List.mem_map_of_mem Prod.fst hq)
    · by_cases hlt : strLt n k = true
      · simp [insertEntry, hk, hlt] at hq
        rcases hq with hq | hq | hq
        · simp [hq]
        · simp [hq]
        · refine Or.inr ?_
          rw [List.map_cons]
          exact List.mem_cons_of_mem _ (List.mem_map_of_mem Prod.fst hq)
      · simp [insertEntry, hk, hlt] at hq
        rcases hq with hq | hq
        · simp [hq]
        · rcases ih q hq with h1 | h1
          · exact Or.inl h1
          · refine Or.inr ?_
            rw [List.map_cons]
            exact List.mem_cons_of_mem _ h1

theorem sorted_insertEntry (n : String) (e : ChartVersion)
    {es : List (String × List ChartVersion)} (hs : List.Sorted keyLT es) :
    List.Sorted keyLT (insertEntry n e es) := by
  induction es with
  | nil => simp [insertEntry, List.sorted_singleton]
  | cons p es ih =>
    obtain ⟨k, vs⟩ := p
    rw [List.sorted_cons] at hs
    obtain ⟨hk_rest, hrest⟩ := hs
    by_cases hk : k = n
    · subst hk
      rw [show insertEntry k e ((k, vs) :: es) = (k, replaceVersion e vs) :: es by
        simp [insertEntry]]
      exact List.sorted_cons.mpr ⟨fun q hq => hk_rest q hq, hrest⟩
    · by_cases hlt : strLt n k = true
      · rw [show insertEntry n e ((k, vs) :: es) = (n, [e]) :: (k, vs) :: es by
          simp [insertEntry, hk, hlt]]
        refine List.sorted_cons.mpr ⟨?_, List.sorted_cons.mpr ⟨hk_rest, hrest⟩⟩
        intro q hq
        rcases List.mem_cons.mp hq with hq | hq
        · subst hq; exact hlt
        · exact strLt_trans hlt (hk_rest q hq)
      · have hkn : strLt k n = true :=
          strLt_conn (by simpa using hlt) (fun hh => hk hh.symm)
        rw [show insertEntry n e ((k, vs) :: es) = (k, vs) :: insertEntry n e es by
          simp [insertEntry, hk, hlt]]
        refine List.sorted_cons.mpr ⟨?_, ih hrest⟩
        intro q hq
        rcases mem_insertEntry_key n e es q hq with h1 | h1
        · show strLt k q.1 = true
          rw [h1]; exact hkn
        · obtain ⟨p, hp, hp1⟩ := List.mem_map.mp h1
          show strLt k q.1 = true
          rw [← hp1]
          exact hk_rest p hp

theorem replaceVersion_versions (e : ChartVersion) (vs : List ChartVersion) :
    (replaceVersion e vs).map ChartVersion.version =
      (if e.version ∈ vs.map ChartVersion.version then vs.map ChartVersion.version
       else vs.map ChartVersion.version ++ [e.version]) := by
  induction vs with
  | nil => simp [replaceVersion]
  | cons v vs ih =>
    by_cases h : v.version = e.version
    · simp [replaceVersion, h]
    · have hvs : ¬ e.version = v.version := fun hh => h hh.symm
      by_cases hm : e.version ∈ vs.map ChartVersion.version
      · simp [replaceVersion, h, ih, hm, hvs]
      · simp [replaceVersion, h, ih, hm, hvs]

theorem nodup_replaceVersion (e : ChartVersion) {vs : List ChartVersion}
    (h : (vs.map ChartVersion.version).Nodup) :
    ((replaceVersion e vs).map ChartVersion.version).Nodup := by
  rw [replaceVersion_versions]
  by_cases hm : e.version ∈ vs.map ChartVersion.version
  · simpa [hm]
  · simp only [hm, if_false]
    simp [List.nodup_append, h, hm]

theorem versionsNodup_insertEntry (n : String) (e : ChartVersion)
    {es : List (String × List ChartVersion)} (h : versionsNodup es) :
    versionsNodup (insertEntry n e es) := by
  induction es with
  | nil =>
    intro q hq
    simp [insertEntry] at hq
    simp [hq]
  | cons p es ih =>
    obtain ⟨k, vs⟩ := p
    have hhead : ((k, vs).2.map ChartVersion.version).Nodup := h _ (by simp)
    have htail : versionsNodup es := fun q hq => h q (List.mem_cons_of_mem _ hq)
    intro q hq
    by_cases hk : k = n
    · subst hk
      simp [insertEntry] at hq
      rcases hq with hq | hq
      · subst hq
        exact nodup_replaceVersion e hhead
      · exact htail q hq
    · by_cases hlt : strLt n k = true
      · simp [insertEntry, hk, hlt] at hq
        rcases hq with hq | hq | hq
        · simp [hq]
        · subst hq; exact hhead
        · exact htail q hq
      · simp [insertEntry, hk, hlt] at hq
        rcases hq with hq | hq
        · subst hq; exact hhead
        · exact ih htail q hq

theorem removeVersion_sublist {v : String} {vs vs2 : List ChartVersion} {u : String}
    (h : removeVersion v vs = some (u, vs2)) : vs2.Sublist vs := by
  induction vs generalizing u vs2 with
  | nil => simp [removeVersion] at h
  | cons w ws ih =>
    by_cases hw : w.version = v
    · simp [removeVersion, hw] at h
      rw [← h.2]
      exact List.sublist_cons_self w ws
    · simp only [removeVersion, hw, if_neg, ite_false] at h
      cases hr : removeVersion v ws with
      | none => rw [hr] at h; simp at h
      | some p =>
        obtain ⟨u2, ws2⟩ := p
        rw [hr] at h
        simp at h
        rw [← h.2]
        exact List.Sublist.cons₂ w (ih hr)

theorem mem_deleteEntry_key {n v : String} {es es2 : List (String × List ChartVersion)}
    {u : String} (h : deleteEntry n v es = some (u, es2)) :
    ∀ q ∈ es2, q.1 ∈ es.map Prod.fst := by
  induction es generalizing es2 u with
  | nil => simp [deleteEntry] at h
  | cons p es ih =>
    obtain ⟨k, vs⟩ := p
    by_cases hk : k = n
    · subst hk
      simp only [deleteEntry, if_pos rfl] at h
      cases hr : removeVersion v vs with
      | none => rw [hr] at h; simp at h
      | some pr =>
        obtain ⟨u2, vs2⟩ := pr
        rw [hr] at h
        simp at h
        rw [← h.2]
        by_cases he : vs2 = []
        · simp only [he, List.isEmpty_nil, if_pos]
          intro q hq
          rw [List.map_cons]
          exact List.mem_cons_of_mem _ (List.mem_map_of_mem Prod.fst hq)
        · rw [if_neg (by simp [he])]
          intro q hq
          rcases List.mem_cons.mp hq with hq | hq
          · subst hq; simp
          · rw [List.map_cons]
            exact List.mem_cons_of_mem _ (List.mem_map_of_mem Prod.fst hq)
    · simp only [deleteEntry, hk, if_neg, ite_false] at h
      cases hr : deleteEntry n v es with
      | none => rw [hr] at h; simp at h
      | some pr =>
        obtain ⟨u2, rest2⟩ := pr
        rw [hr] at h
        simp at h
        rw [← h.2]
        intro q hq
        rcases List.mem_cons.mp hq with hq | hq
        · subst hq; simp
        · rw [List.map_cons]
          exact List.mem_cons_of_mem _ (ih hr q hq)

theorem sorted_deleteEntry {n v : String} {es es2 : List (String × List ChartVersion)}
    {u : String} (hs : List.Sorted keyLT es) (h : deleteEntry n v es = some (u, es2)) :
    List.Sorted keyLT es2 := by
  induction es generalizing es2 u with
  | nil => simp [deleteEntry] at h
  | cons p es ih =>
    obtain ⟨k, vs⟩ := p
    rw [List.sorted_cons] at hs
    obtain ⟨hk_rest, hrest⟩ := hs
    by_cases hk : k = n
    · subst hk
      simp only [deleteEntry, if_pos rfl] at h
      cases hr : removeVersion v vs with
      | none => rw [hr] at h; simp at h
      | some pr =>
        obtain ⟨u2, vs2⟩ := pr
        rw [hr] at h
        simp at h
        rw [← h.2]
        by_cases he : vs2 = []
        · simp only [he, List.isEmpty_nil, if_pos]
          exact hrest
        · rw [if_neg (by simp [he])]
          exact List.sorted_cons.mpr ⟨hk_rest, hrest⟩
    · simp only [deleteEntry, hk, if_neg, ite_false] at h
      cases hr : deleteEntry n v es with
      | none => rw [hr] at h; simp at h
      | some pr =>
        obtain ⟨u2, rest2⟩ := pr
        rw [hr] at h
        simp at h
        rw [← h.2]
        refine List.sorted_cons.mpr ⟨?_, ih hrest hr⟩
        intro q hq
        obtain ⟨p2, hp2, hp2e⟩ := List.mem_map.mp (mem_deleteEntry_key hr q hq)
        show strLt k q.1 = true
        rw [← hp2e]
        exact hk_rest p2 hp2

theorem versionsNodup_deleteEntry {n v : String}
    {es es2 : List (String × List ChartVersion)} {u : String}
    (hn : versionsNodup es) (h : deleteEntry n v es = some (u, es2)) :
    versionsNodup es2 := by
  induction es generalizing es2 u with
  | nil => simp [deleteEntry] at h
  | cons p es ih =>
    obtain ⟨k, vs⟩ := p
    have hhead : ((k, vs).2.map ChartVersion.version).Nodup := hn _ (by simp)
    have htail : versionsNodup es := fun q hq => hn q (List.mem_cons_of_mem _ hq)
    by_cases hk : k = n
    · subst hk
      simp only [deleteEntry, if_pos rfl] at h
      cases hr : removeVersion v vs with
      | none => rw [hr] at h; simp at h
      | some pr =>
        obtain ⟨u2, vs2⟩ := pr
        rw [hr] at h
        simp at h
        rw [← h.2]
        by_cases he : vs2 = []
        · simp only [he, List.isEmpty_nil, if_pos]
          exact htail
        · rw [if_neg (by simp [he])]
          intro q hq
          rcases List.mem_cons.mp hq with hq | hq
          · subst hq
            exact ((removeVersion_sublist hr).map ChartVersion.version).nodup hhead
          · exact htail q hq
    · simp only [deleteEntry, hk, if_neg, ite_false] at h
      cases hr : deleteEntry n v es with
      | none => rw [hr] at h; simp at h
      | some pr =>
        obtain ⟨u2, rest2⟩ := pr
        rw [hr] at h
        simp at h
        rw [← h.2]
        intro q hq
        rcases List.mem_cons.mp hq with hq | hq
        · subst hq; exact hhead
        · exact ih htail hr q hq

theorem Canonical_AddOrReplace {idx m : Index} {md : ChartMetadata}
    {fileName baseURL digest now : String} (hc : idx.Canonical)
    (h : idx.AddOrReplace md fileName baseURL digest now = .ok m) :
    m.Canonical := by
  by_cases h1 : md.name = ""
  · simp [Index.AddOrReplace, h1] at h
  · cases h2 : parseSemver md.version with
    | none => simp [Index.AddOrReplace, h1, h2] at h
    | some s =>
      simp [Index.AddOrReplace, h1, h2] at h
      rw [← h]
      exact ⟨sorted_insertEntry _ _ hc.1, versionsNodup_insertEntry _ _ hc.2⟩

theorem Canonical_Delete {idx : Index} (n v : String) (hc : idx.Canonical) :
    ((idx.Delete n v).2).Canonical := by
  unfold Index.Delete
  cases h : deleteEntry n v (idx.entries.getD []) with
  | none => exact hc
  | some pr =>
    obtain ⟨u, es2⟩ := pr
    exact ⟨sorted_deleteEntry hc.1 h, versionsNodup_deleteEntry hc.2 h⟩

/-! ## Counting (name, version) occurrences -/

/-- Number of entries carrying the pair (name, version) anywhere in the
manifest. -/
def countPair (idx : Index) (n v : String) : Nat :=
  ((idx.entries.getD []).map
    (fun p => if p.1 = n then (p.2.filter (fun e => e.version == v)).length else 0)).sum

theorem filter_version_length_le_one {vs : List ChartVersion} {v : String}
    (h : (vs.map ChartVersion.version).Nodup) :
    (vs.filter (fun e => e.version == v)).length ≤ 1 := by
  have h1 : (vs.filter (fun e => e.version == v)).length = vs.countP (fun e => e.version == v) :=
    (List.countP_eq_length_filter _ _).symm
  have h2 : vs.countP (fun e => e.version == v) = (vs.map ChartVersion.version).countP (· == v) := by
    rw [List.countP_map]
    rfl
  have h3 : (vs.map ChartVersion.version).countP (· == v) = (vs.map ChartVersion.version).count v := rfl
  rw [h1, h2, h3]
  exact List.nodup_iff_count_le_one.mp h v

theorem countIn_le_one {es : List (String × List ChartVersion)} {n v : String}
    (hs : List.Sorted keyLT es) (hn : versionsNodup es) :
    (es.map (fun p => if p.1 = n then (p.2.filter (fun e => e.version == v)).length else 0)).sum ≤ 1 := by
  induction es with
  | nil => simp
  | cons p es ih =>
    obtain ⟨k, vs⟩ := p
    rw [List.sorted_cons] at hs
    obtain ⟨hk_rest, hrest⟩ := hs
    have htail : versionsNodup es := fun q hq => hn q (List.mem_cons_of_mem _ hq)
    by_cases hk : k = n
    · subst hk
      have hz : (es.map (fun p => if p.1 = k then (p.2.filter (fun e => e.version == v)).length else 0)).sum = 0 := by
        rw [List.sum_eq_zero]
        intro x hx
        obtain ⟨q, hq, hqe⟩ := List.mem_map.mp hx
        have hlt2 : strLt k q.1 = true := hk_rest q hq
        have hne : ¬ q.1 = k := by
          intro hh
          rw [hh, strLt_irrefl k] at hlt2
          exact Bool.false_ne_true hlt2
        rw [← hqe]
        simp [hne]
      simp only [List.map_cons, List.sum_cons, if_true]
      rw [hz]
      have hle : (vs.filter (fun e => e.version == v)).length ≤ 1 :=
        @filter_version_length_le_one vs v (hn (k, vs) (by simp))
      omega
    · simp only [List.map_cons, List.sum_cons]
      have hif : (if (k, vs).1 = n then ((k, vs).2.filter (fun e => e.version == v)).length else 0)
          = 0 := by simp [hk]
      rw [hif]
      have := ih hrest htail
      omega

theorem countPair_le_one {idx : Index} (hc : idx.Canonical) (n v : String) :
    countPair idx n v ≤ 1 :=
  countIn_le_one hc.1 hc.2

theorem findVersion_some {v : String} {vs : List ChartVersion} {e : ChartVersion}
    (h : findVersion v vs = some e) : e ∈ vs ∧ e.version = v := by
  induction vs with
  | nil => simp [findVersion] at h
  | cons w ws ih =>
    by_cases hw : w.version = v
    · simp [findVersion, hw] at h
      rw [← h]
      exact ⟨by simp, hw⟩
    · simp [findVersion, hw] at h
      obtain ⟨h1, h2⟩ := ih h
      exact ⟨List.mem_cons_of_mem _ h1, h2⟩

theorem lookupIn_some_count_pos {es : List (String × List ChartVersion)}
    {n v : String} {e : ChartVersion} (h : lookupIn es n v = some e) :
    1 ≤ (es.map (fun p => if p.1 = n then (p.2.filter (fun e => e.version == v)).length else 0)).sum := by
  induction es with
  | nil => simp [lookupIn, lookupEntries] at h
  | cons p es ih =>
    obtain ⟨k, vs⟩ := p
    by_cases hk : k = n
    · subst hk
      simp [lookupIn, lookupEntries] at h
      obtain ⟨hmem, hver⟩ := findVersion_some h
      have : e ∈ vs.filter (fun x => x.version == v) := by
        rw [List.mem_filter]
        exact ⟨hmem, by simp [hver]⟩
      have hpos : 0 < (vs.filter (fun x => x.version == v)).length :=
        List.length_pos.mpr (fun hnil => by simp [hnil] at this)
      simp only [List.map_cons, List.sum_cons, if_true]
      have heq : (vs.filter (fun e => e.version == v)) = (vs.filter (fun x => x.version == v)) := rfl
      rw [heq]
      omega
    · simp [lookupIn, lookupEntries, hk] at h
      have := ih (by simpa [lookupIn] using h)
      simp only [List.map_cons, List.sum_cons]
      have hif : (if (k, vs).1 = n then ((k, vs).2.filter (fun e => e.version == v)).length else 0)
          = 0 := by simp [hk]
      rw [hif]
      omega

theorem countPair_pos {idx : Index} {n v : String} {e : ChartVersion}
    (h : idx.lookup n v = some e) : 1 ≤ countPair idx n v :=
  lookupIn_some_count_pos h

/-! ## Operation sequences over a manifest -/

/-- One merge operation of the engine: AddOrReplace or Delete. -/
inductive Op where
  | add (md : ChartMetadata) (fileName baseURL digest now : String)
  | del (name version : String)

/-- Apply one operation the way the Go engine mutates its receiver: a
failing AddOrReplace or Delete leaves the manifest unchanged. -/
def applyOp (idx : Index) : Op → Index
  | .add md f b d t =>
    match idx.AddOrReplace md f b d t with
    | .ok i => i
    | .error _ => idx
  | .del n v => (idx.Delete n v).2

/-- Apply a sequence of operations in order. -/
def applyOps (idx : Index) (ops : List Op) : Index := ops.foldl applyOp idx

theorem Canonical_applyOp {idx : Index} (hc : idx.Canonical) (op : Op) :
    (applyOp idx op).Canonical := by
  cases op with
  | add md f b d t =>
    simp only [applyOp]
    cases h : idx.AddOrReplace md f b d t with
    | ok i => exact Canonical_AddOrReplace hc h
    | error e => exact hc
  | del n v => exact Canonical_Delete n v hc

theorem Canonical_applyOps {idx : Index} (hc : idx.Canonical) (ops : List Op) :
    (applyOps idx ops).Canonical := by
  induction ops generalizing idx with
  | nil => exact hc
  | cons op ops ih => exact ih (Canonical_applyOp hc op)

theorem Canonical_newIndex : newIndex.Canonical :=
  ⟨List.sorted_nil, fun p hp => absurd hp (List.not_mem_nil p)⟩

/-- Concrete manifest holding chart foo 0.1.0 with digest sha256:111,
the result of one AddOrReplace on the empty manifest. -/
def idx1c : Index :=
  ⟨"v1", zeroTime, some [("foo",
    [⟨"foo", "0.1.0", ["foo-0.1.0.tgz"], "sha256:111", "t1"⟩])]⟩

/-- Concrete manifest holding chart foo 0.1.0 with digest sha256:222,
the result of replacing the entry of idx1c. -/
def idx2c : Index :=
  ⟨"v1", zeroTime, some [("foo",
    [⟨"foo", "0.1.0", ["foo-0.1.0.tgz"], "sha256:222", "t2"⟩])]⟩

/-! ## Claim theorems: merge algorithm -/

/-- C3: for every manifest satisfying the engine invariant and every
sequence of AddOrReplace and Delete operations, the pair (name, version)
stays unique within the manifest (at most one entry for any pair); and
calling AddOrReplace twice with the same (name, version) and different
digests leaves exactly one entry for that pair, carrying the digest of
the second call. -/
theorem merge_pair_uniqueness (m : Index) (hm : m.Canonical) :
    (∀ (ops : List Op) (n v : String), countPair (applyOps m ops) n v ≤ 1) ∧
    (∀ (md : ChartMetadata) (f1 b1 d1 t1 f2 b2 d2 t2 : String) (m1 m2 : Index),
      m.AddOrReplace md f1 b1 d1 t1 = .ok m1 →
      m1.AddOrReplace md f2 b2 d2 t2 = .ok m2 →
      countPair m2 md.name md.version = 1 ∧
      ∃ e, m2.lookup md.name md.version = some e ∧ e.digest = d2) := by
  constructor
  · intro ops n v
    exact countPair_le_one (Canonical_applyOps hm ops) n v
  · intro md f1 b1 d1 t1 f2 b2 d2 t2 m1 m2 h1 h2
    have hname : md.name ≠ "" := by
      intro hh
      simp [Index.AddOrReplace, hh] at h2
    have hver : ∃ s, parseSemver md.version = some s := by
      cases hp : parseSemver md.version with
      | none => simp [Index.AddOrReplace, hname, hp] at h2
      | some s => exact ⟨s, rfl⟩
    obtain ⟨s, hs⟩ := hver
    have h2e := @AddOrReplace_ok md s m1 f2 b2 d2 t2 hname hs
    rw [h2] at h2e
    have hm2 : m2 = { m1 with
        entries := some (insertEntry md.name
          ⟨md.name, md.version, [urlJoin b2 f2], d2, t2⟩ (m1.entries.getD [])) } := by
      injection h2e
    have hlook : m2.lookup md.name md.version =
        some ⟨md.name, md.version, [urlJoin b2 f2], d2, t2⟩ := by
      rw [hm2]
      simpa [Index.lookup] using
        lookupIn_insertEntry_self md.name
          ⟨md.name, md.version, [urlJoin b2 f2], d2, t2⟩ (m1.entries.getD [])
    have hc2 : m2.Canonical :=
      Canonical_AddOrReplace (Canonical_AddOrReplace hm h1) h2
    exact ⟨Nat.le_antisymm (countPair_le_one hc2 _ _) (countPair_pos hlook),
      ⟨_, hlook, rfl⟩⟩

/-- Witness for C3 at concrete inputs: the empty manifest, one
add-then-delete sequence, and a double AddOrReplace with digests
sha256:111 then sha256:222. -/
theorem merge_pair_uniqueness_witness :
    countPair (applyOps newIndex
      [Op.add ⟨"foo", "0.1.0"⟩ "foo-0.1.0.tgz" "" "sha256:111" "t1",
       Op.del "foo" "0.1.0"]) "foo" "0.1.0" ≤ 1 ∧
    (countPair idx2c "foo" "0.1.0" = 1 ∧
      ∃ e, idx2c.lookup "foo" "0.1.0" = some e ∧ e.digest = "sha256:222") :=
  ⟨(merge_pair_uniqueness newIndex Canonical_newIndex).1 _ "foo" "0.1.0",
   (merge_pair_uniqueness newIndex Canonical_newIndex).2
     ⟨"foo", "0.1.0"⟩ "foo-0.1.0.tgz" "" "sha256:111" "t1"
     "foo-0.1.0.tgz" "" "sha256:222" "t2" idx1c idx2c rfl rfl⟩

/-- C4: for all valid inputs, AddOrReplace followed by a lookup of
(name, version) returns an entry whose first location equals the join of
baseURL and fileName (just fileName when baseURL is empty) and whose
digest equals the input digest. -/
theorem addOrReplace_lookup_location_digest (idx : Index) (md : ChartMetadata)
    (fileName baseURL digest now : String) {s : Semver}
    (h1 : md.name ≠ "") (h2 : parseSemver md.version = some s) :
    ∃ m, idx.AddOrReplace md fileName baseURL digest now = .ok m ∧
      ∃ e, m.lookup md.name md.version = some e ∧
        e.urls.headD "" = urlJoin baseURL fileName ∧
        e.digest = digest ∧
        (baseURL = "" → e.urls.headD "" = fileName) := by
  refine ⟨_, AddOrReplace_ok idx fileName baseURL digest now h1 h2, ?_⟩
  refine ⟨⟨md.name, md.version, [urlJoin baseURL fileName], digest, now⟩, ?_, rfl, rfl, ?_⟩
  · simpa [Index.lookup] using
      lookupIn_insertEntry_self md.name
        ⟨md.name, md.version, [urlJoin baseURL fileName], digest, now⟩
        (idx.entries.getD [])
  · intro hb
    simp [urlJoin, hb]

/-- Witness for C4 at the concrete inputs of the repository test. -/
theorem addOrReplace_lookup_location_digest_witness :
    (("foo" : String) ≠ "" ∧ parseSemver "0.1.0" = some ⟨0, 1, 0⟩) ∧
    (∃ m, newIndex.AddOrReplace ⟨"foo", "0.1.0"⟩ "foo-0.1.0.tgz"
        "http://example.com/charts" "sha256:1234567890" "t" = .ok m ∧
      ∃ e, m.lookup "foo" "0.1.0" = some e ∧
        e.urls.headD "" = urlJoin "http://example.com/charts" "foo-0.1.0.tgz" ∧
        e.digest = "sha256:1234567890" ∧
        ("http://example.com/charts" = "" → e.urls.headD "" = "foo-0.1.0.tgz")) :=
  ⟨⟨by decide, by decide⟩,
   @addOrReplace_lookup_location_digest newIndex ⟨"foo", "0.1.0"⟩
     "foo-0.1.0.tgz" "http://example.com/charts" "sha256:1234567890" "t" ⟨0, 1, 0⟩
     (by decide) (by decide)⟩

/-- C5: Delete of a (name, version) pair with no matching entry returns
an error and leaves the manifest unchanged. -/
theorem delete_missing_pair_noop (idx : Index) (name version : String)
    (h : idx.lookup name version = none) :
    (∃ e, (idx.Delete name version).1 = .error e) ∧
    (idx.Delete name version).2 = idx := by
  have hd : deleteEntry name version (idx.entries.getD []) = none :=
    deleteEntry_of_lookupIn_none h
  constructor
  · refine ⟨"chart " ++ name ++ " version " ++ version ++ " not found in index", ?_⟩
    simp [Index.Delete, hd]
  · simp [Index.Delete, hd]

/-- Witness for C5: deleting a chart absent from a one-chart manifest. -/
theorem delete_missing_pair_noop_witness :
    idx1c.lookup "bar" "1.0.0" = none ∧
    ((∃ e, (idx1c.Delete "bar" "1.0.0").1 = .error e) ∧
      (idx1c.Delete "bar" "1.0.0").2 = idx1c) :=
  ⟨by decide, delete_missing_pair_noop idx1c "bar" "1.0.0" (by decide)⟩

/-! ## Claim theorems: sorting -/

/-- C6: SortEntries orders each artifact version list by descending
parsed semantic version, keys untouched; in particular an artifact with
versions 2.0.0 and 1.0.0 added in that order has 2.0.0 first after the
sort, and so does the reverse insertion order. -/
theorem sortEntries_descending :
    (∀ (idx : Index) (p : String × List ChartVersion),
        p ∈ (Index.SortEntries idx).entries.getD [] → List.Sorted vDesc p.2) ∧
    (∀ idx : Index,
        ((Index.SortEntries idx).entries.getD []).map Prod.fst =
          (idx.entries.getD []).map Prod.fst) ∧
    (∃ m1 m2 : Index,
      newIndex.AddOrReplace ⟨"a", "2.0.0"⟩ "a-2.0.0.tgz" "" "d2" "t" = .ok m1 ∧
      m1.AddOrReplace ⟨"a", "1.0.0"⟩ "a-1.0.0.tgz" "" "d1" "t" = .ok m2 ∧
      ((Index.SortEntries m2).entries.getD []).map (fun p => p.2.map ChartVersion.version) =
        [["2.0.0", "1.0.0"]]) ∧
    (∃ m1 m2 : Index,
      newIndex.AddOrReplace ⟨"a", "1.0.0"⟩ "a-1.0.0.tgz" "" "d1" "t" = .ok m1 ∧
      m1.AddOrReplace ⟨"a", "2.0.0"⟩ "a-2.0.0.tgz" "" "d2" "t" = .ok m2 ∧
      ((Index.SortEntries m2).entries.getD []).map (fun p => p.2.map ChartVersion.version) =
        [["2.0.0", "1.0.0"]]) := by
  refine ⟨?_, ?_, ?_, ?_⟩
  · intro idx p hp
    cases h : idx.entries with
    | none => simp [Index.SortEntries, h] at hp
    | some es =>
      simp [Index.SortEntries, h] at hp
      obtain ⟨k, vs, hmem, hpe⟩ := hp
      rw [← hpe]
      exact List.sorted_insertionSort vDesc vs
  · intro idx
    cases h : idx.entries with
    | none => simp [Index.SortEntries, h]
    | some es => simp [Index.SortEntries, h]
  · exact ⟨_, _, rfl, rfl, rfl⟩
  · exact ⟨_, _, rfl, rfl, rfl⟩

/-- Witness for C6 on a concrete two-version manifest. -/
theorem sortEntries_descending_witness :
    ("a", [⟨"a", "2.0.0", ["a-2.0.0.tgz"], "d2", "t"⟩,
           ⟨"a", "1.0.0", ["a-1.0.0.tgz"], "d1", "t"⟩]) ∈
      (Index.SortEntries ⟨"v1", zeroTime, some [("a",
        [⟨"a", "2.0.0", ["a-2.0.0.tgz"], "d2", "t"⟩,
         ⟨"a", "1.0.0", ["a-1.0.0.tgz"], "d1", "t"⟩])]⟩).entries.getD [] ∧
    List.Sorted vDesc
      [⟨"a", "2.0.0", ["a-2.0.0.tgz"], "d2", "t"⟩,
       ⟨"a", "1.0.0", ["a-1.0.0.tgz"], "d1", "t"⟩] :=
  ⟨by decide,
   sortEntries_descending.1
     ⟨"v1", zeroTime, some [("a",
       [⟨"a", "2.0.0", ["a-2.0.0.tgz"], "d2", "t"⟩,
        ⟨"a", "1.0.0", ["a-1.0.0.tgz"], "d1", "t"⟩])]⟩
     ("a", [⟨"a", "2.0.0", ["a-2.0.0.tgz"], "d2", "t"⟩,
            ⟨"a", "1.0.0", ["a-1.0.0.tgz"], "d1", "t"⟩])
     (by decide)⟩

/-! ## Codec lemmas and claim theorems -/

theorem decodeStrList_encode (us : List String) :
    decodeStrList (us.map Yaml.str) = .ok us := by
  induction us with
  | nil => rfl
  | cons u us ih => simp [decodeStrList, ih, Except.map]

theorem decodeEntry_encode (v : ChartVersion) : decodeEntry (encodeEntry v) = .ok v := by
  simp [encodeEntry, decodeEntry, decodeStrList_encode, Except.map]

theorem decodeVersions_encode (vs : List ChartVersion) :
    decodeVersions (vs.map encodeEntry) = .ok vs := by
  induction vs with
  | nil => rfl
  | cons v vs ih =>
    simp only [List.map_cons, decodeVersions, decodeEntry_encode, ih]
    rfl

theorem decodeEntries_encode (es : List (String × List ChartVersion)) :
    decodeEntries (es.map (fun p => (p.1, Yaml.seq (p.2.map encodeEntry)))) = .ok es := by
  induction es with
  | nil => rfl
  | cons p es ih =>
    obtain ⟨k, vs⟩ := p
    simp only [List.map_cons, decodeEntries, decodeVersions_encode, ih]
    rfl

theorem decodeIndex_encodeIndex (idx : Index) :
    decodeIndex (encodeIndex idx) = .ok idx := by
  obtain ⟨a, g, entries⟩ := idx
  cases entries with
  | none => rfl
  | some es => simp [encodeIndex, decodeIndex, decodeEntries_encode, Except.map]

/-- The entries block of a serialized manifest document. -/
def entriesOf : Yaml → List (String × Yaml)
  | .map fs =>
    match fs.lookup "entries" with
    | some (.map es) => es
    | _ => []
  | _ => []

/-- The version scalar of a serialized version entry. -/
def versionScalarOf : Yaml → String
  | .map fs =>
    match fs.lookup "version" with
    | some (.str s) => s
    | _ => ""
  | _ => ""

/-- The version scalars of a serialized version-entry sequence. -/
def versionsOfSeq : Yaml → List String
  | .seq ys => ys.map versionScalarOf
  | _ => []

/-- Descending parsed-version order on version strings. -/
def sDesc (x y : String) : Prop :=
  Semver.leB ((parseSemver y).getD ⟨0, 0, 0⟩) ((parseSemver x).getD ⟨0, 0, 0⟩) = true

theorem entriesOf_encodeIndex {idx : Index} {es : List (String × List ChartVersion)}
    (h : idx.entries = some es) :
    entriesOf (encodeIndex idx) =
      es.map (fun p => (p.1, Yaml.seq (p.2.map encodeEntry))) := by
  simp [encodeIndex, entriesOf, h, List.lookup]

theorem versionScalarOf_encodeEntry (v : ChartVersion) :
    versionScalarOf (encodeEntry v) = v.version := rfl

/-- C2: for every manifest the engine serializes (entries initialized,
keys in serializer order, version lists freshly sorted), decoding the
encoding yields the manifest back, for the shared codec and for both
schema variants; and the encoded output is stable: artifact keys in
sorted order and the version scalars of each artifact in descending
parsed-version order. -/
theorem codec_roundtrip_stable (idx : Index) (es : List (String × List ChartVersion))
    (h1 : idx.entries = some es) (h2 : List.Sorted keyLT es) :
    decodeIndex (encodeIndex (Index.SortEntries idx)) = .ok (Index.SortEntries idx) ∧
    IndexV2.decode (IndexV2.encode ⟨Index.SortEntries idx⟩) = .ok ⟨Index.SortEntries idx⟩ ∧
    IndexV3.decode (IndexV3.encode ⟨Index.SortEntries idx⟩) = .ok ⟨Index.SortEntries idx⟩ ∧
    List.Sorted (fun a b : String => strLt a b = true)
      ((entriesOf (encodeIndex (Index.SortEntries idx))).map Prod.fst) ∧
    (∀ q ∈ entriesOf (encodeIndex (Index.SortEntries idx)),
      List.Sorted sDesc (versionsOfSeq q.2)) := by
  have hse : (Index.SortEntries idx).entries =
      some (es.map (fun p => (p.1, List.insertionSort vDesc p.2))) := by
    simp [Index.SortEntries, h1]
  have heo := entriesOf_encodeIndex hse
  refine ⟨decodeIndex_encodeIndex _, ?_, ?_, ?_, ?_⟩
  · simp [IndexV2.decode, IndexV2.encode, decodeIndex_encodeIndex, Except.map]
  · simp [IndexV3.decode, IndexV3.encode, decodeIndex_encodeIndex, Except.map]
  · rw [heo, List.map_map, List.map_map]
    show List.Sorted (fun a b : String => strLt a b = true) (es.map Prod.fst)
    exact List.Pairwise.map Prod.fst (fun a b hab => hab) h2
  · rw [heo]
    intro q hq
    rw [List.map_map] at hq
    obtain ⟨p, hp, hq2⟩ := List.mem_map.mp hq
    rw [← hq2]
    show List.Sorted sDesc
      (versionsOfSeq (Yaml.seq ((List.insertionSort vDesc p.2).map encodeEntry)))
    simp only [versionsOfSeq, List.map_map]
    exact List.Pairwise.map _ (fun a b hab => hab)
      (List.sorted_insertionSort vDesc p.2)


/-- Concrete two-chart manifest used by the codec witness. -/
def idxW : Index :=
  ⟨"v1", zeroTime, some [
    ("a", [⟨"a", "1.0.0", ["a-1.0.0.tgz"], "d1", "t"⟩,
           ⟨"a", "2.0.0", ["a-2.0.0.tgz"], "d2", "t"⟩]),
    ("b", [⟨"b", "0.1.0", ["b-0.1.0.tgz"], "d3", "t"⟩])]⟩

/-- Witness for C2 on a concrete manifest with two artifacts and an
unsorted version list. -/
theorem codec_roundtrip_stable_witness :
    decodeIndex (encodeIndex (Index.SortEntries idxW)) = .ok (Index.SortEntries idxW) ∧
    IndexV2.decode (IndexV2.encode ⟨Index.SortEntries idxW⟩) = .ok ⟨Index.SortEntries idxW⟩ ∧
    IndexV3.decode (IndexV3.encode ⟨Index.SortEntries idxW⟩) = .ok ⟨Index.SortEntries idxW⟩ ∧
    List.Sorted (fun a b : String => strLt a b = true)
      ((entriesOf (encodeIndex (Index.SortEntries idxW))).map Prod.fst) ∧
    (∀ q ∈ entriesOf (encodeIndex (Index.SortEntries idxW)),
      List.Sorted sDesc (versionsOfSeq q.2)) :=
  codec_roundtrip_stable idxW
    [("a", [⟨"a", "1.0.0", ["a-1.0.0.tgz"], "d1", "t"⟩,
            ⟨"a", "2.0.0", ["a-2.0.0.tgz"], "d2", "t"⟩]),
     ("b", [⟨"b", "0.1.0", ["b-0.1.0.tgz"], "d3", "t"⟩])]
    rfl (by decide)

/-- C7: an empty-but-initialized manifest (initialized empty entries
mapping, zero generated timestamp) renders to the fixed canonical empty
form: the entries field is present as an empty mapping and the generated
field is present as the quoted zero timestamp, neither omitted. -/
theorem empty_manifest_canonical_form :
    (∀ a : String, needsQuote a = false →
      Index.MarshalBinary ⟨a, zeroTime, some []⟩ =
        "apiVersion: " ++ a ++ "\n" ++ "entries: \x7b\x7d\n" ++
          "generated: " ++ "\"0001-01-01T00:00:00Z\"" ++ "\n") ∧
    Index.MarshalBinary newIndex =
      "apiVersion: v1\nentries: \x7b\x7d\ngenerated: \"0001-01-01T00:00:00Z\"\n" := by
  constructor
  · intro a h
    show "apiVersion: " ++ renderScalar a ++ "\n" ++ "entries: \x7b\x7d\n" ++
        "generated: " ++ renderScalar zeroTime ++ "\n" = _
    rw [show renderScalar zeroTime = "\"0001-01-01T00:00:00Z\"" from rfl,
        show renderScalar a = a by simp [renderScalar, h]]
  · decide

/-- Witness for C7 at the v1 schema marker. -/
theorem empty_manifest_canonical_form_witness :
    needsQuote "v1" = false ∧
    Index.MarshalBinary ⟨"v1", zeroTime, some []⟩ =
      "apiVersion: " ++ "v1" ++ "\n" ++ "entries: \x7b\x7d\n" ++
        "generated: " ++ "\"0001-01-01T00:00:00Z\"" ++ "\n" :=
  ⟨by decide, empty_manifest_canonical_form.1 "v1" (by decide)⟩

/-! ## Claim theorems: actions -/

/-- C8: a publish invocation with both force and ignore-if-exists set
fails with the usage error and performs no collaborator call at all: no
fetch, no object upload or delete, no index upload, no cache write. -/
theorem push_force_ignore_usage_error (env : PushEnv) (md : ChartMetadata)
    (fileName baseURL digest now : String) :
    pushActionRun env md fileName baseURL digest now true true =
      (.error "the force and ignore-if-exists flags are mutually exclusive", []) := rfl

/-- C10: when Index.Delete succeeds returning the empty url, the delete
action skips the object-store delete entirely while still uploading the
re-encoded index and writing it to the local cache. -/
theorem delete_empty_url_skips_object_delete (env : DeleteEnv)
    (name version : String) (idx idx2 : Index)
    (hf : env.fetched = .ok idx)
    (hd : idx.Delete name version = (.ok "", idx2))
    (hp : env.putIndexOk = .ok ()) (hw : env.writeOk = .ok ()) :
    deleteActionRun env name version =
      (.ok (), [.fetchIndex, .putIndex idx2.MarshalBinary,
                .writeLocalCache idx2.MarshalBinary]) ∧
    ∀ u, Effect.deleteObject u ∉ (deleteActionRun env name version).2 := by
  have hrun : deleteActionRun env name version =
      (.ok (), [.fetchIndex, .putIndex idx2.MarshalBinary,
                .writeLocalCache idx2.MarshalBinary]) := by
    simp [deleteActionRun, hf, hd, publishSteps, hp, hw]
  refine ⟨hrun, ?_⟩
  rw [hrun]
  intro u hu
  simp at hu

/-- Concrete manifest whose only chart entry has no locations, so its
deletion returns the empty url. -/
def idxNoURL : Index :=
  ⟨"v1", zeroTime, some [("foo", [⟨"foo", "1.0.0", [], "d", "c"⟩])]⟩

/-- Witness for C10: deleting the location-free chart of idxNoURL. -/
theorem delete_empty_url_skips_object_delete_witness :
    (DeleteEnv.mk (.ok idxNoURL) (.ok ()) (.ok ()) (.ok ())).fetched = .ok idxNoURL ∧
    idxNoURL.Delete "foo" "1.0.0" = (.ok "", ⟨"v1", zeroTime, some []⟩) ∧
    (deleteActionRun (DeleteEnv.mk (.ok idxNoURL) (.ok ()) (.ok ()) (.ok ())) "foo" "1.0.0" =
      (.ok (), [.fetchIndex, .putIndex (Index.MarshalBinary ⟨"v1", zeroTime, some []⟩),
                .writeLocalCache (Index.MarshalBinary ⟨"v1", zeroTime, some []⟩)]) ∧
     ∀ u, Effect.deleteObject u ∉
        (deleteActionRun (DeleteEnv.mk (.ok idxNoURL) (.ok ()) (.ok ()) (.ok ())) "foo" "1.0.0").2) :=
  ⟨rfl, rfl,
   delete_empty_url_skips_object_delete
     (DeleteEnv.mk (.ok idxNoURL) (.ok ()) (.ok ()) (.ok ()))
     "foo" "1.0.0" idxNoURL ⟨"v1", zeroTime, some []⟩ rfl rfl rfl rfl⟩

/-! ## Reindex pipeline lemmas -/

theorem findVersion_isSome_iff {v : String} {vs : List ChartVersion} :
    (findVersion v vs).isSome = true ↔ v ∈ vs.map ChartVersion.version := by
  induction vs with
  | nil => simp [findVersion]
  | cons e es ih =>
    by_cases he : e.version = v
    · simp [findVersion, he]
    · have hvs : ¬ v = e.version := fun hh => he hh.symm
      simp [findVersion, he, ih, hvs]

theorem lookupEntries_map (n : String) (f : List ChartVersion → List ChartVersion)
    (es : List (String × List ChartVersion)) :
    lookupEntries n (es.map (fun p => (p.1, f p.2))) = (lookupEntries n es).map f := by
  induction es with
  | nil => rfl
  | cons p es ih =>
    obtain ⟨k, vs⟩ := p
    by_cases hk : k = n
    · simp [lookupEntries, hk]
    · simp [lookupEntries, hk, ih]

theorem lookup_SortEntries_isSome {idx : Index} {n v : String} :
    ((Index.SortEntries idx).lookup n v).isSome = true ↔
      (idx.lookup n v).isSome = true := by
  unfold Index.lookup Index.SortEntries lookupIn
  cases h : idx.entries with
  | none => simp [h]
  | some es =>
    rw [show ((Option.map (List.map fun p => (p.1, List.insertionSort vDesc p.2)) (some es)).getD [])
        = es.map (fun p => (p.1, List.insertionSort vDesc p.2)) from rfl]
    rw [show (some es).getD [] = es from rfl]
    rw [lookupEntries_map]
    cases hl : lookupEntries n es with
    | none => simp
    | some vs =>
      rw [show (some vs).map (List.insertionSort vDesc) = some (List.insertionSort vDesc vs) from rfl]
      simp only
      rw [findVersion_isSome_iff, findVersion_isSome_iff]
      exact ((List.perm_insertionSort vDesc vs).map ChartVersion.version).mem_iff

theorem mem_versions_replaceVersion {v : String} (e : ChartVersion)
    {vs : List ChartVersion} (h : v ∈ vs.map ChartVersion.version) :
    v ∈ (replaceVersion e vs).map ChartVersion.version := by
  rw [replaceVersion_versions]
  by_cases hm : e.version ∈ vs.map ChartVersion.version
  · rw [if_pos hm]
    exact h
  · rw [if_neg hm]
    exact List.mem_append_left _ h

theorem lookupIn_insertEntry_isSome_mono {es : List (String × List ChartVersion)}
    {n v n0 : String} {e : ChartVersion} (hs : List.Sorted keyLT es)
    (h : (lookupIn es n v).isSome = true) :
    (lookupIn (insertEntry n0 e es) n v).isSome = true := by
  by_cases hn : n = n0
  · subst hn
    induction es with
    | nil => simp [lookupIn, lookupEntries] at h
    | cons p rest ih =>
      obtain ⟨k, vs⟩ := p
      rw [List.sorted_cons] at hs
      obtain ⟨hk_rest, hrest⟩ := hs
      by_cases hk : k = n
      · subst hk
        rw [show insertEntry k e ((k, vs) :: rest) = (k, replaceVersion e vs) :: rest by
          simp [insertEntry]]
        have h2 : (findVersion v vs).isSome = true := by
          simpa [lookupIn, lookupEntries] using h
        have h3 : v ∈ (replaceVersion e vs).map ChartVersion.version :=
          mem_versions_replaceVersion e (findVersion_isSome_iff.mp h2)
        simp [lookupIn, lookupEntries]
        exact findVersion_isSome_iff.mpr h3
      · by_cases hlt : strLt n k = true
        · -- the looked-up key n would have to live past k in a sorted list,
          -- contradicting strLt n k
          exfalso
          simp [lookupIn, lookupEntries, hk] at h
          have hx : ∃ vs2, lookupEntries n rest = some vs2 := by
            cases hl : lookupEntries n rest with
            | none => rw [hl] at h; simp at h
            | some vs2 => exact ⟨vs2, rfl⟩
          obtain ⟨vs2, hl⟩ := hx
          have hmem : (n, vs2) ∈ rest ∨ True := Or.inr trivial
          -- extract that rest has a key equal to n
          clear hmem
          have hkey : ∃ q ∈ rest, q.1 = n := by
            clear h ih hk_rest hrest
            induction rest with
            | nil => simp [lookupEntries] at hl
            | cons q qs ihq =>
              obtain ⟨k2, vs3⟩ := q
              by_cases hk2 : k2 = n
              · exact ⟨(k2, vs3), by simp, hk2⟩
              · simp [lookupEntries, hk2] at hl
                obtain ⟨q2, hq2, hq2e⟩ := ihq hl
                exact ⟨q2, List.mem_cons_of_mem _ hq2, hq2e⟩
          obtain ⟨q, hq, hqe⟩ := hkey
          have h1 : strLt k q.1 = true := hk_rest q hq
          rw [hqe] at h1
          have h2 : strLt n n = true := strLt_trans hlt h1
          rw [strLt_irrefl] at h2
          exact Bool.false_ne_true h2
        · rw [show insertEntry n e ((k, vs) :: rest) = (k, vs) :: insertEntry n e rest by
            simp [insertEntry, hk, hlt]]
          simp [lookupIn, lookupEntries, hk] at h ⊢
          exact ih hrest (by simpa [lookupIn] using h)
  · unfold lookupIn
    rw [lookupEntries_insertEntry_ne hn]
    exact h

theorem AddOrReplace_ok_valid {idx m : Index} {md : ChartMetadata}
    {fileName baseURL digest now : String}
    (h : idx.AddOrReplace md fileName baseURL digest now = .ok m) :
    md.name ≠ "" ∧ ∃ s, parseSemver md.version = some s := by
  constructor
  · intro hh
    simp [Index.AddOrReplace, hh] at h
  · cases hp : parseSemver md.version with
    | none =>
      by_cases hh : md.name = ""
      · simp [Index.AddOrReplace, hh] at h
      · simp [Index.AddOrReplace, hh, hp] at h
    | some s => exact ⟨s, rfl⟩

theorem AddOrReplace_ok_entries {idx m : Index} {md : ChartMetadata}
    {fileName baseURL digest now : String}
    (h : idx.AddOrReplace md fileName baseURL digest now = .ok m) :
    m = { idx with entries := some (insertEntry md.name
      ⟨md.name, md.version, [urlJoin baseURL fileName], digest, now⟩
      (idx.entries.getD [])) } := by
  obtain ⟨hname, s, hs⟩ := AddOrReplace_ok_valid h
  have h2 := @AddOrReplace_ok md s idx fileName baseURL digest now hname hs
  rw [h] at h2
  injection h2

/-- Sorted-keys invariant of the index being built by the consumer. -/
def sortedKeys (idx : Index) : Prop := List.Sorted keyLT (idx.entries.getD [])

theorem sortedKeys_newIndex : sortedKeys newIndex := List.sorted_nil

theorem reindexStep_sortedKeys {baseURL now : String} {acc : Index × List String}
    {it : TraverseItem} (hs : sortedKeys acc.1) :
    sortedKeys ((reindexStep baseURL now acc it).1) := by
  unfold reindexStep
  cases hA : acc.1.AddOrReplace it.meta it.filename baseURL it.hash now with
  | error e => exact hs
  | ok i =>
    rw [AddOrReplace_ok_entries hA]
    exact sorted_insertEntry _ _ hs

theorem reindexStep_lookup_isSome {baseURL now : String} {acc : Index × List String}
    {it : TraverseItem} {n v : String} (hs : sortedKeys acc.1)
    (h : (acc.1.lookup n v).isSome = true) :
    (((reindexStep baseURL now acc it).1).lookup n v).isSome = true := by
  unfold reindexStep
  cases hA : acc.1.AddOrReplace it.meta it.filename baseURL it.hash now with
  | error e => simpa using h
  | ok i =>
    have hi := AddOrReplace_ok_entries hA
    simp only
    rw [hi]
    show (lookupIn (insertEntry it.meta.name _ (acc.1.entries.getD [])) n v).isSome = true
    exact lookupIn_insertEntry_isSome_mono hs h

theorem reindexFold_lookup_mono (items : List TraverseItem) {baseURL now : String}
    {acc : Index × List String} {n v : String} (hs : sortedKeys acc.1)
    (h : (acc.1.lookup n v).isSome = true) :
    (((items.foldl (reindexStep baseURL now) acc).1).lookup n v).isSome = true := by
  induction items generalizing acc with
  | nil => exact h
  | cons it items ih =>
    exact ih (reindexStep_sortedKeys hs) (reindexStep_lookup_isSome hs h)

theorem reindexFold_covers {items : List TraverseItem} {baseURL now : String}
    {it : TraverseItem} (hmem : it ∈ items) (hv : validMeta it.meta = true)
    (acc : Index × List String) (hs : sortedKeys acc.1) :
    (((items.foldl (reindexStep baseURL now) acc).1).lookup
      it.meta.name it.meta.version).isSome = true := by
  induction items generalizing acc with
  | nil => simp at hmem
  | cons i rest ih =>
    rcases List.mem_cons.mp hmem with hmem | hmem
    · subst hmem
      have hname : it.meta.name ≠ "" := by
        intro hh
        rw [validMeta, hh] at hv
        simp at hv
      have hver : ∃ s, parseSemver it.meta.version = some s := by
        rw [validMeta] at hv
        cases hp : parseSemver it.meta.version with
        | none => rw [hp] at hv; simp at hv
        | some s => exact ⟨s, rfl⟩
      obtain ⟨s, hs2⟩ := hver
      apply reindexFold_lookup_mono rest (reindexStep_sortedKeys hs)
      unfold reindexStep
      rw [@AddOrReplace_ok it.meta s acc.1 it.filename baseURL it.hash now hname hs2]
      simp only [Index.lookup, Option.getD_some]
      have hself := lookupIn_insertEntry_self it.meta.name
        ⟨it.meta.name, it.meta.version, [urlJoin baseURL it.filename], it.hash, now⟩
        (acc.1.entries.getD [])
      rw [hself]
      rfl
    · exact ih hmem _ (reindexStep_sortedKeys hs)

theorem mem_replaceVersion {x e : ChartVersion} {vs : List ChartVersion}
    (h : x ∈ replaceVersion e vs) : x = e ∨ x ∈ vs := by
  induction vs with
  | nil => simp [replaceVersion] at h; exact Or.inl h
  | cons v vs ih =>
    by_cases hv : v.version = e.version
    · simp [replaceVersion, hv] at h
      rcases h with h | h
      · exact Or.inl h
      · exact Or.inr (List.mem_cons_of_mem _ h)
    · simp [replaceVersion, hv] at h
      rcases h with h | h
      · exact Or.inr (by simp [h])
      · rcases ih h with h1 | h1
        · exact Or.inl h1
        · exact Or.inr (List.mem_cons_of_mem _ h1)

theorem insertEntry_entry_mem {n : String} {e x : ChartVersion}
    {es : List (String × List ChartVersion)} {q : String × List ChartVersion}
    (hq : q ∈ insertEntry n e es) (hx : x ∈ q.2) :
    x = e ∨ ∃ p ∈ es, x ∈ p.2 := by
  induction es with
  | nil =>
    simp [insertEntry] at hq
    rw [hq] at hx
    simp at hx
    exact Or.inl hx
  | cons p es ih =>
    obtain ⟨k, vs⟩ := p
    by_cases hk : k = n
    · subst hk
      simp [insertEntry] at hq
      rcases hq with hq | hq
      · rw [hq] at hx
        simp at hx
        rcases mem_replaceVersion hx with h1 | h1
        · exact Or.inl h1
        · exact Or.inr ⟨(k, vs), by simp, h1⟩
      · exact Or.inr ⟨q, List.mem_cons_of_mem _ hq, hx⟩
    · by_cases hlt : strLt n k = true
      · simp [insertEntry, hk, hlt] at hq
        rcases hq with hq | hq | hq
        · rw [hq] at hx
          simp at hx
          exact Or.inl hx
        · exact Or.inr ⟨(k, vs), by simp, by rw [← hq]; exact hx⟩
        · exact Or.inr ⟨q, List.mem_cons_of_mem _ hq, hx⟩
      · simp [insertEntry, hk, hlt] at hq
        rcases hq with hq | hq
        · exact Or.inr ⟨(k, vs), by simp, by rw [← hq]; exact hx⟩
        · rcases ih hq with h1 | h1
          · exact Or.inl h1
          · obtain ⟨p, hp, hpx⟩ := h1
            exact Or.inr ⟨p, List.mem_cons_of_mem _ hp, hpx⟩

/-- Every entry of the manifest carries a non-empty name and a parseable
version: the validity the consumer establishes for everything it folds
into the rebuilt index. -/
def entriesValid (idx : Index) : Prop :=
  ∀ p ∈ idx.entries.getD [], ∀ e ∈ p.2,
    e.name ≠ "" ∧ (parseSemver e.version).isSome = true

theorem entriesValid_newIndex : entriesValid newIndex := by
  intro p hp
  simp [newIndex] at hp

theorem entriesValid_AddOrReplace {idx m : Index} {md : ChartMetadata}
    {fileName baseURL digest now : String} (hv : entriesValid idx)
    (h : idx.AddOrReplace md fileName baseURL digest now = .ok m) :
    entriesValid m := by
  obtain ⟨hname, s, hs⟩ := AddOrReplace_ok_valid h
  rw [AddOrReplace_ok_entries h]
  intro p hp x hx
  rcases insertEntry_entry_mem hp hx with h1 | h1
  · rw [h1]
    exact ⟨hname, by simp [hs]⟩
  · obtain ⟨p2, hp2, hpx⟩ := h1
    exact hv p2 hp2 x hpx

theorem entriesValid_reindexStep {baseURL now : String} {acc : Index × List String}
    {it : TraverseItem} (hv : entriesValid acc.1) :
    entriesValid ((reindexStep baseURL now acc it).1) := by
  unfold reindexStep
  cases hA : acc.1.AddOrReplace it.meta it.filename baseURL it.hash now with
  | error e => exact hv
  | ok i => exact entriesValid_AddOrReplace hv hA

theorem entriesValid_reindexFold (items : List TraverseItem) {baseURL now : String}
    {acc : Index × List String} (hv : entriesValid acc.1) :
    entriesValid ((items.foldl (reindexStep baseURL now) acc).1) := by
  induction items generalizing acc with
  | nil => exact hv
  | cons it items ih => exact ih (entriesValid_reindexStep hv)

theorem entriesValid_SortEntries {idx : Index} (hv : entriesValid idx) :
    entriesValid (Index.SortEntries idx) := by
  intro p hp x hx
  cases h : idx.entries with
  | none => simp [Index.SortEntries, h] at hp
  | some es =>
    simp [Index.SortEntries, h] at hp
    obtain ⟨k, vs, hmem, hpe⟩ := hp
    rw [← hpe] at hx
    simp at hx
    exact hv (k, vs) (by rw [h]; simpa using hmem) x hx

theorem reindexStep_log_length (baseURL now : String) (acc : Index × List String)
    (it : TraverseItem) :
    ((reindexStep baseURL now acc it).2).length =
      acc.2.length + (if validMeta it.meta = true then 0 else 1) := by
  unfold reindexStep
  cases hA : acc.1.AddOrReplace it.meta it.filename baseURL it.hash now with
  | ok i =>
    have hok := AddOrReplace_isOk acc.1 it.meta it.filename baseURL it.hash now
    rw [hA] at hok
    simp [Except.isOk, Except.toBool] at hok
    simp [hok]
  | error e =>
    have hok := AddOrReplace_isOk acc.1 it.meta it.filename baseURL it.hash now
    rw [hA] at hok
    simp [Except.isOk, Except.toBool] at hok
    simp [hok]

theorem reindexFold_log_length (items : List TraverseItem) (baseURL now : String)
    (acc : Index × List String) :
    ((items.foldl (reindexStep baseURL now) acc).2).length =
      acc.2.length + (items.filter (fun it => !(validMeta it.meta))).length := by
  induction items generalizing acc with
  | nil => simp
  | cons it items ih =>
    rw [List.foldl_cons, ih, reindexStep_log_length]
    by_cases hv : validMeta it.meta = true
    · simp [hv]
    · have hv2 : validMeta it.meta = false := by
        cases hvv : validMeta it.meta
        · rfl
        · exact absurd hvv hv
      simp [hv2]
      omega

/-! ## Claim theorems: reindex pipeline -/

/-- C1: per-object traversal failures do not stop the pipeline: the
consumer still folds every emitted triple, so the built manifest covers
every successfully processed (valid) object; and, with the collaborator
upload and cache write succeeding, the overall reindex run succeeds
exactly when the error channel yielded nothing. -/
theorem reindex_partial_failure_policy
    (objects : List (Except String TraverseItem)) (baseURL now : String)
    (putIndexOk writeOk : Except String Unit)
    (hp : putIndexOk = .ok ()) (hw : writeOk = .ok ()) :
    ((reindexActionRun objects baseURL now putIndexOk writeOk).1.isOk = true ↔
      (Traverse objects).2 = []) ∧
    (∀ it ∈ (Traverse objects).1, validMeta it.meta = true →
      (((reindexConsume (Traverse objects).1 baseURL now).1).lookup
        it.meta.name it.meta.version).isSome = true) := by
  constructor
  · subst hp hw
    cases he : (Traverse objects).2 with
    | nil => simp [reindexActionRun, he, Except.isOk, Except.toBool]
    | cons e es => simp [reindexActionRun, he, Except.isOk, Except.toBool]
  · intro it hmem hv
    have hbuilt : (reindexConsume (Traverse objects).1 baseURL now).1 =
        Index.SortEntries (((Traverse objects).1.foldl
          (reindexStep baseURL now) (newIndex, [])).1) := rfl
    rw [hbuilt, lookup_SortEntries_isSome]
    exact reindexFold_covers hmem hv (newIndex, []) sortedKeys_newIndex

/-- Traversal outcome with one valid object and one failed object, used
by the C1 witness. -/
def objsC1 : List (Except String TraverseItem) :=
  [.ok ⟨⟨"foo", "1.0.0"⟩, "foo-1.0.0.tgz", "sha256:1"⟩, .error "fetch object: boom"]

/-- Witness for C1: with one object failed, the run reports failure, yet
the built manifest covers the valid object. -/
theorem reindex_partial_failure_policy_witness :
    ((reindexActionRun objsC1 "" "t" (.ok ()) (.ok ())).1.isOk = true ↔
      (Traverse objsC1).2 = []) ∧
    (((reindexConsume (Traverse objsC1).1 "" "t").1).lookup "foo" "1.0.0").isSome = true :=
  ⟨(reindex_partial_failure_policy objsC1 "" "t" (.ok ()) (.ok ()) rfl rfl).1,
   (reindex_partial_failure_policy objsC1 "" "t" (.ok ()) (.ok ()) rfl rfl).2
     ⟨⟨"foo", "1.0.0"⟩, "foo-1.0.0.tgz", "sha256:1"⟩ (by decide) (by decide)⟩

/-- C9: when the error channel yields nothing and the collaborator steps
succeed, the reindex run succeeds and publishes the built index even if
some adds failed; each failed add contributes exactly one log line; and
the built index omits invalid charts entirely: every entry it holds has
a non-empty name and a parseable version. -/
theorem reindex_add_failure_logged_skipped
    (objects : List (Except String TraverseItem)) (baseURL now : String)
    (putIndexOk writeOk : Except String Unit)
    (he : (Traverse objects).2 = [])
    (hp : putIndexOk = .ok ()) (hw : writeOk = .ok ()) :
    (reindexActionRun objects baseURL now putIndexOk writeOk =
      (.ok (), [.putIndex ((reindexConsume (Traverse objects).1 baseURL now).1).MarshalBinary,
                .writeLocalCache ((reindexConsume (Traverse objects).1 baseURL now).1).MarshalBinary])) ∧
    ((reindexConsume (Traverse objects).1 baseURL now).2.length =
      ((Traverse objects).1.filter (fun it => !(validMeta it.meta))).length) ∧
    (∀ p ∈ ((reindexConsume (Traverse objects).1 baseURL now).1).entries.getD [],
      ∀ e ∈ p.2, e.name ≠ "" ∧ (parseSemver e.version).isSome = true) := by
  refine ⟨?_, ?_, ?_⟩
  · subst hp hw
    simp [reindexActionRun, he]
  · have hlog : (reindexConsume (Traverse objects).1 baseURL now).2 =
        (((Traverse objects).1.foldl (reindexStep baseURL now) (newIndex, []))).2 := rfl
    rw [hlog, reindexFold_log_length]
    simp
  · have hbuilt : (reindexConsume (Traverse objects).1 baseURL now).1 =
        Index.SortEntries (((Traverse objects).1.foldl
          (reindexStep baseURL now) (newIndex, [])).1) := rfl
    rw [hbuilt]
    exact entriesValid_SortEntries
      (entriesValid_reindexFold _ entriesValid_newIndex)

/-- Traversal outcome with one valid object and one object whose
embedded version does not parse, used by the C9 witness. -/
def objsC9 : List (Except String TraverseItem) :=
  [.ok ⟨⟨"good", "1.0.0"⟩, "good-1.0.0.tgz", "sha256:1"⟩,
   .ok ⟨⟨"bad", "oops"⟩, "bad.tgz", "sha256:2"⟩]

/-- Witness for C9: the run publishes the built index and succeeds, the
invalid chart produces exactly one log line, and the only entry of the
built index is the valid one. -/
theorem reindex_add_failure_logged_skipped_witness :
    (reindexActionRun objsC9 "" "t" (.ok ()) (.ok ()) =
      (.ok (), [.putIndex ((reindexConsume (Traverse objsC9).1 "" "t").1).MarshalBinary,
                .writeLocalCache ((reindexConsume (Traverse objsC9).1 "" "t").1).MarshalBinary])) ∧
    ((reindexConsume (Traverse objsC9).1 "" "t").2.length =
      ((Traverse objsC9).1.filter (fun it => !(validMeta it.meta))).length) ∧
    (("good" : String) ≠ "" ∧ (parseSemver "1.0.0").isSome = true) :=
  ⟨(reindex_add_failure_logged_skipped objsC9 "" "t" (.ok ()) (.ok ()) rfl rfl rfl).1,
   (reindex_add_failure_logged_skipped objsC9 "" "t" (.ok ()) (.ok ()) rfl rfl rfl).2.1,
   (reindex_add_failure_logged_skipped objsC9 "" "t" (.ok ()) (.ok ()) rfl rfl rfl).2.2
     ("good", [⟨"good", "1.0.0", ["good-1.0.0.tgz"], "sha256:1", "t"⟩]) (by decide)
     ⟨"good", "1.0.0", ["good-1.0.0.tgz"], "sha256:1", "t"⟩ (by decide)⟩

end HelmS3
